import Mathlib

/-!
Shallow embedding of the crawl-and-index core of a documentation scraper
(GitBook-style sites): content fingerprinting, change detection, retry and
backoff, breadth-first URL discovery with a static-asset filter, an
SQLite-backed page store with an FTS5 index kept in sync by triggers, and
search-result snippet generation.  Each definition mirrors one function of
the source; theorems settle the specification claims about them.

Scope conventions used throughout:
- machine strings are Lean `String` / `List Char`; character case folding
  models JavaScript `toLowerCase` on the ASCII range;
- `Date` values are epoch milliseconds (`Int`), exactly the representation
  the store persists;
- external library functions (SHA-256, the JSON codec, the HTML parser and
  the stemmer) enter as parameters of the definitions that call them, with
  their documented contracts as hypotheses where a claim needs them.
-/

namespace Mcpbook

/-- Lowercase a character list; models JavaScript `toLowerCase` (ASCII range). -/
def lcList (l : List Char) : List Char := l.map Char.toLower

/-- Lowercase a string; models JavaScript `String.prototype.toLowerCase` (ASCII range). -/
def strLower (s : String) : String := String.mk (lcList s.toList)

/-- Executable check that `needle` occurs as a contiguous run inside `hay`. -/
def listContains (hay needle : List Char) : Bool :=
  if needle.isPrefixOf hay then true
  else
    match hay with
    | [] => false
    | _ :: t => listContains t needle

/-- Substring test: models JavaScript `String.prototype.includes`. -/
def containsSub (s pat : String) : Bool := listContains s.toList pat.toList

/-- Prefix test on strings (models `String.prototype.startsWith`). -/
def strStartsWith (s pre : String) : Bool := pre.toList.isPrefixOf s.toList

/-- Suffix test on strings (models regular expressions anchored with `$`). -/
def strEndsWith (s suf : String) : Bool := suf.toList.isSuffixOf s.toList

/-- Trim ASCII whitespace from both ends (models `String.prototype.trim`). -/
def strTrim (s : String) : String :=
  String.mk (((s.toList.dropWhile Char.isWhitespace).reverse.dropWhile
    Char.isWhitespace).reverse)

/-- Split at every occurrence of one character, keeping empty pieces —
`String.prototype.split` with a single-character separator. -/
def splitCharAux (sep : Char) (buf : List Char) : List Char → List (List Char)
  | [] => [buf.reverse]
  | c :: t =>
    if c = sep then buf.reverse :: splitCharAux sep [] t
    else splitCharAux sep (c :: buf) t

/-- Split at every occurrence of one character, keeping empty pieces —
`String.prototype.split` with a single-character separator. -/
def splitChar (sep : Char) (s : String) : List String :=
  (splitCharAux sep [] s.toList).map String.mk

/-- Deduplication keeping first occurrences; models `[...new Set(xs)]`. -/
def jsDedupAux (seen : List String) : List String → List String
  | [] => []
  | a :: t => if a ∈ seen then jsDedupAux seen t else a :: jsDedupAux (a :: seen) t

/-- Deduplication keeping first occurrences; models `[...new Set(xs)]`. -/
def jsDedup (l : List String) : List String := jsDedupAux [] l

/-- The exact string the scraper feeds to SHA-256 for a page fingerprint:
`calculateHash(content + title)` in `GitBookScraper.scrapePage` — the plain
concatenation of the extracted text and the page title. -/
def fingerprintInput (content title : String) : String := content ++ title

/-- Content fingerprint of a page: `GitBookScraper.calculateHash` applied to
`content + title`.  The SHA-256 hex digest is the parameter `sha256hex`;
collision-freeness of the digest is assumed where a claim needs it. -/
def contentFingerprint (sha256hex : String → String) (content title : String) : String :=
  sha256hex (fingerprintInput content title)

/-- Backoff delay before retry number `retryCount` in
`GitBookScraper.scrapePageWithRetry`:
`Math.min(1000 * Math.pow(2, retryCount), 10000)`. -/
def backoffDelay (retryCount : Nat) : Nat := min (1000 * 2 ^ retryCount) 10000

/-- A code block extracted from a page (`CodeBlock` in the scraper). -/
structure CodeBlock where
  language : String
  code : String
  title : Option String
  lineNumbers : Bool
deriving DecidableEq

/-- A scraped page (`GitBookPage` in the scraper).  The TypeScript field
`section` is a Lean keyword and is rendered here as `sectionName`; the two
`Date` fields are epoch milliseconds. -/
structure GitBookPage where
  path : String
  title : String
  content : String
  rawHtml : String
  markdown : String
  codeBlocks : List CodeBlock
  sectionName : String
  subsection : Option String
  url : String
  lastUpdated : Int
  contentHash : String
  lastChecked : Int
  searchableText : String
deriving DecidableEq

/-- Outcome of one `fetchWithHeaders` call together with the artifacts the
scraper extracts from the response body with cheerio/turndown (external
parsers, so the parsed values appear directly):
`ok` is a 2xx response carrying its content type and the extracted title,
plain text, raw HTML, markdown and code blocks; `httpError` is a non-2xx
status; `netError` is a rejected fetch (network failure or timeout). -/
inductive FetchReply where
  | ok (contentType title content rawHtml markdown : String) (codeBlocks : List CodeBlock)
  | httpError (status : Nat)
  | netError
deriving DecidableEq

/-- Loop body of `GitBookScraper.checkPageForChanges`.  `replies k` is the
outcome of the fetch on loop iteration with `retryCount = rc`; `fuel` is
`3 - rc`, the number of loop iterations still permitted by the guard
`retryCount <= 2` (every iteration either returns or increments
`retryCount`, so the guard never exits the loop on its own).  On a 2xx
reply the stored page gets `lastChecked := now` and the path is marked
changed iff the freshly computed fingerprint differs from the stored
`contentHash`; a server error (status ≥ 500) retries while `rc < 2`, any
other HTTP error returns at once, and a rejected fetch retries while
`rc < 2`.  The returned pair is (stored page after the check, whether the
path was added to `changedPages`). -/
def checkLoop (sha256hex : String → String) (now : Int) (page : GitBookPage)
    (replies : Nat → FetchReply) : Nat → Nat → GitBookPage × Bool
  | _, 0 => (page, false)
  | rc, fuel + 1 =>
    match replies rc with
    | .ok _ title content _ _ _ =>
      ({ page with lastChecked := now },
        contentFingerprint sha256hex content title != page.contentHash)
    | .httpError status =>
      if 500 ≤ status ∧ rc < 2 then checkLoop sha256hex now page replies (rc + 1) fuel
      else (page, false)
    | .netError =>
      if rc < 2 then checkLoop sha256hex now page replies (rc + 1) fuel
      else (page, false)

/-- `GitBookScraper.checkPageForChanges` for one stored page: the check loop
started at `retryCount = 0`. -/
def checkPageForChanges (sha256hex : String → String) (now : Int) (page : GitBookPage)
    (replies : Nat → FetchReply) : GitBookPage × Bool :=
  checkLoop sha256hex now page replies 0 3

/-- Projection of the check loop onto its fetch outcome: `some (title,
content)` when some iteration reaches a 2xx reply under the retry policy of
`checkPageForChanges` (the extracted title and text of that reply), `none`
when the check gives up.  Mirrors the control flow of `checkLoop` exactly. -/
def checkOutcome (replies : Nat → FetchReply) : Nat → Nat → Option (String × String)
  | _, 0 => none
  | rc, fuel + 1 =>
    match replies rc with
    | .ok _ title content _ _ _ => some (title, content)
    | .httpError status =>
      if 500 ≤ status ∧ rc < 2 then checkOutcome replies (rc + 1) fuel else none
    | .netError =>
      if rc < 2 then checkOutcome replies (rc + 1) fuel else none

/-- Lookup in an association list (a JavaScript `Map` or plain object). -/
def lookupKey {α : Type} : List (String × α) → String → Option α
  | [], _ => none
  | (k0, v0) :: t, k => if k0 = k then some v0 else lookupKey t k

/-- `map.set(k, v)` / `obj[k] = v`: replace the value in place if the key is
present (preserving its position), otherwise append the new entry. -/
def setKey {α : Type} : List (String × α) → String → α → List (String × α)
  | [], k, v => [(k, v)]
  | (k0, v0) :: t, k, v =>
    if k0 = k then (k0, v) :: t else (k0, v0) :: setKey t k v

/-- `map.delete(k)`: drop the entry with the given key, if any. -/
def eraseKey {α : Type} : List (String × α) → String → List (String × α)
  | [], _ => []
  | (k0, v0) :: t, k => if k0 = k then t else (k0, v0) :: eraseKey t k

/-- `set.add(x)` on a JavaScript `Set` kept as an insertion-ordered list. -/
def addElem (l : List String) (x : String) : List String :=
  if x ∈ l then l else l ++ [x]

/-- `GitBookScraper.joinUrls` for bases whose URL has an empty path (the
`basePath !== '/'` de-duplication branch is not taken): an absolute `http`
or `https` value passes through, otherwise one trailing slash is stripped
from the base, a leading slash is ensured on the path, and the two are
concatenated. -/
def joinUrls (base p : String) : String :=
  if strStartsWith p "http://" || strStartsWith p "https://" then p
  else
    let cleanBase := if strEndsWith base "/" then String.mk base.toList.dropLast else base
    let cleanPath := if strStartsWith p "/" then p else "/" ++ p
    cleanBase ++ cleanPath

/-- The canonicalization table of `GitBookScraper.extractSection`. -/
def sectionMap (seg : String) : Option String :=
  if seg = "sdk" then some "SDK"
  else if seg = "backend" then some "Backend"
  else if seg = "frontend" then some "Frontend"
  else if seg = "introduction" then some "Introduction"
  else none

/-- `GitBookScraper.extractSection`: first path segment through the
canonicalization table, the raw segment as fallback, `Introduction` for the
root. -/
def extractSection (path : String) : String :=
  match (splitChar '/' path).filter (fun s => s ≠ "") with
  | [] => "Introduction"
  | p0 :: _ => (sectionMap (strLower p0)).getD p0

/-- `GitBookScraper.extractSubsection`: the second path segment, if any. -/
def extractSubsection (path : String) : Option String :=
  match (splitChar '/' path).filter (fun s => s ≠ "") with
  | _ :: p1 :: _ => some p1
  | _ => none

/-- Mutable fields of `GitBookScraper` touched by scraping and retries:
`content` (path → page), `visitedUrls`, `failedPages` (path → retry count)
and `retryQueue`.  (`changedPages` and `discoveredUrls` belong to the
change-detection and discovery models.) -/
structure ScraperState where
  content : List (String × GitBookPage)
  visitedUrls : List String
  failedPages : List (String × Nat)
  retryQueue : List String
deriving DecidableEq

/-- External collaborators of `scrapePage`: the SHA-256 hex digest and
`TextProcessor.createSearchableText` (title, content, section, subsection),
plus the current clock value `new Date()` as epoch milliseconds. -/
structure ScrapeEnv where
  sha256hex : String → String
  createSearchableText : String → String → String → Option String → String
  now : Int

/-- `GitBookScraper.scrapePage`.  The whole body after the `visitedUrls`
bookkeeping sits inside `try { ... } catch (error) { console.log(...) }`,
so every failure — non-2xx status, non-HTML content type, rejected fetch —
is logged and swallowed and the method returns normally with the state
unchanged apart from `visitedUrls`; it never rethrows.  On success the
extracted page is stored under `path` with both timestamps set to now.
(The trailing `delay(scrapingDelayMs)` only spends time and is not part of
the state.) -/
def scrapePage (env : ScrapeEnv) (reply : FetchReply) (baseUrl : String)
    (st : ScraperState) (path : String) (forceUpdate : Bool) : ScraperState :=
  let url := joinUrls baseUrl path
  if url ∈ st.visitedUrls ∧ forceUpdate = false then st
  else
    let st1 := { st with visitedUrls := addElem st.visitedUrls url }
    match reply with
    | .httpError _ => st1
    | .netError => st1
    | .ok contentType title content rawHtml markdown codeBlocks =>
      if containsSub contentType "text/html" = false then st1
      else
        let sectionName := extractSection path
        let subsection := extractSubsection path
        let contentHash := contentFingerprint env.sha256hex content title
        let cleanTitle := strTrim title
        let searchableText := env.createSearchableText cleanTitle content sectionName subsection
        { st1 with
          content := setKey st1.content path
            { path := path, title := cleanTitle, content := content, rawHtml := rawHtml,
              markdown := markdown, codeBlocks := codeBlocks, sectionName := sectionName,
              subsection := subsection, url := url, lastUpdated := env.now,
              contentHash := contentHash, lastChecked := env.now,
              searchableText := searchableText } }

/-- Result of one `scrapePageWithRetry` call: the state it leaves behind,
the list of backoff delays it slept (in order), how many times it invoked
`scrapePage`, and whether it resolved (`true`) or rethrew after exhausting
the retry budget (`false`). -/
structure RetryOutcome where
  state : ScraperState
  delays : List Nat
  attempts : Nat
  ok : Bool
deriving DecidableEq

/-- `GitBookScraper.scrapePageWithRetry`, parametric in the awaited page
action `act` (an action that may reject, carrying its state at the point of
rejection).  `rc` is `retryCount`; `fuel` is `maxRetries - rc`, so the
source guard `retryCount < maxRetries` is exactly `fuel > 0`.  On success
the path is removed from `failedPages`; on rejection with budget left the
loop sleeps `backoffDelay rc` and recurses with `retryCount + 1`; with the
budget exhausted the error is rethrown. -/
def retryLoop (act : ScraperState → Except ScraperState ScraperState) (path : String) :
    Nat → Nat → ScraperState → RetryOutcome
  | _, 0, st =>
    match act st with
    | .ok st1 => ⟨{ st1 with failedPages := eraseKey st1.failedPages path }, [], 1, true⟩
    | .error st1 => ⟨st1, [], 1, false⟩
  | rc, fuel + 1, st =>
    match act st with
    | .ok st1 => ⟨{ st1 with failedPages := eraseKey st1.failedPages path }, [], 1, true⟩
    | .error st1 =>
      let r := retryLoop act path (rc + 1) fuel st1
      ⟨r.state, backoffDelay rc :: r.delays, r.attempts + 1, r.ok⟩

/-- `GitBookScraper.scrapePageWithRetry` entered with `retryCount = 0`. -/
def scrapePageWithRetry (maxRetries : Nat)
    (act : ScraperState → Except ScraperState ScraperState) (path : String)
    (st : ScraperState) : RetryOutcome :=
  retryLoop act path 0 maxRetries st

/-- `GitBookScraper.handlePageFailure`: bump the retry count recorded for
the path and enqueue it for the end-of-run retry pass if not already
queued. -/
def handlePageFailure (st : ScraperState) (path : String) : ScraperState :=
  let currentRetries := (lookupKey st.failedPages path).getD 0
  { st with
    failedPages := setKey st.failedPages path (currentRetries + 1),
    retryQueue := if path ∈ st.retryQueue then st.retryQueue else st.retryQueue ++ [path] }

/-- `GitBookScraper.scrapePageSafe`: run the retry engine and absorb a final
rejection into `handlePageFailure`.  Also returns the number of page
attempts made. -/
def scrapePageSafe (maxRetries : Nat)
    (act : ScraperState → Except ScraperState ScraperState) (path : String)
    (st : ScraperState) : ScraperState × Nat :=
  let r := scrapePageWithRetry maxRetries act path st
  if r.ok then (r.state, r.attempts) else (handlePageFailure r.state path, r.attempts)

/-- `GitBookScraper.retryFailedPages`: one more `scrapePageSafe` pass (with
`forceUpdate = true`) over every queued path, then the queue is cleared.
`actOf path force` is the page action used for that path.  The source
processes the queue in batches of half the normal concurrency with delays
in between; batch grouping and sleeping only affect timing, so the pass is
modelled as the in-order fold it computes.  Returns the state and the total
number of page attempts of the pass. -/
def retryFailedPages (maxRetries : Nat)
    (actOf : String → Bool → ScraperState → Except ScraperState ScraperState)
    (st : ScraperState) : ScraperState × Nat :=
  let processed := st.retryQueue.foldl
    (fun acc p =>
      let r := scrapePageSafe maxRetries (actOf p true) p acc.1
      (r.1, acc.2 + r.2))
    (st, 0)
  ({ processed.1 with retryQueue := [] }, processed.2)

/-- `GitBookScraper.getFailureStats`: the recorded failed paths and the sum
of their retry counts. -/
def getFailureStats (st : ScraperState) : List String × Nat :=
  (st.failedPages.map Prod.fst, st.failedPages.foldl (fun s kv => s + kv.2) 0)

/-- The awaited action `scrapePageWithRetry` actually runs: a call to
`scrapePage`.  Since `scrapePage` swallows every failure and returns
normally, the action always resolves — it is `.ok` by construction for
every reply, including HTTP 5xx and rejected fetches. -/
def scrapePageAct (env : ScrapeEnv) (reply : FetchReply) (baseUrl path : String)
    (force : Bool) : ScraperState → Except ScraperState ScraperState :=
  fun st => .ok (scrapePage env reply baseUrl st path force)

/-- Concrete environment for evaluating the scraper model: the digest
parameter is instantiated with `id` and the searchable-text builder with
plain concatenation (their values are irrelevant to the evaluated claims). -/
def env0 : ScrapeEnv :=
  ⟨id, fun title content sectionName _ => title ++ " " ++ content ++ " " ++ sectionName, 0⟩

/-- Fresh scraper state: no content, nothing visited, no failures. -/
def st0 : ScraperState := ⟨[], [], [], []⟩

/-- Base URL used by the concrete evaluation scenarios. -/
def baseUrl0 : String := "https://docs.example.com"

/-- A page action that rejects on every attempt — the behaviour
`scrapePageWithRetry` was written to guard against.  Used to exercise the
retry loop itself. -/
def actFail : ScraperState → Except ScraperState ScraperState := fun st => .error st

/-- File extensions of the first pattern of `GitBookScraper.isStaticAsset`
(`/\.(css|js|ico|png|jpg|jpeg|gif|svg|woff|woff2|ttf|eot|pdf|zip|tar|gz)$/i`). -/
def assetExtensions : List String :=
  [".css", ".js", ".ico", ".png", ".jpg", ".jpeg", ".gif", ".svg", ".woff",
    ".woff2", ".ttf", ".eot", ".pdf", ".zip", ".tar", ".gz"]

/-- Directory names of the second pattern of `GitBookScraper.isStaticAsset`
(`/^\/?(_images|assets|static|_static|_assets|images|img|css|js|fonts|media)\//i`). -/
def staticDirectories : List String :=
  ["_images", "assets", "static", "_static", "_assets", "images", "img",
    "css", "js", "fonts", "media"]

/-- `GitBookScraper.isStaticAsset`: the disjunction of the hand-maintained
pattern list, each regular expression rendered over the lowercased path
(every pattern carries the `i` flag): an asset file extension at the end; a
static directory after an optional leading slash; `_` or `.` after an
optional leading slash; a `/search` ending (optionally with a final
slash); `/sitemap`, `/feed`, `/rss` or `/favicon` anywhere; a
`/robots.txt` ending. -/
def isStaticAsset (path : String) : Bool :=
  let p := strLower path
  assetExtensions.any (fun e => strEndsWith p e)
  || staticDirectories.any (fun d => strStartsWith p (d ++ "/") || strStartsWith p ("/" ++ d ++ "/"))
  || strStartsWith p "_" || strStartsWith p "." || strStartsWith p "/_" || strStartsWith p "/."
  || strEndsWith p "/search" || strEndsWith p "/search/"
  || containsSub p "/sitemap"
  || containsSub p "/feed"
  || containsSub p "/rss"
  || strEndsWith p "/robots.txt"
  || containsSub p "/favicon"

/-- `GitBookScraper.isInternalLink`: starts with `/`, or is relative (not
`http...`, not a fragment, not a `mailto:`). -/
def isInternalLink (href : String) : Bool :=
  strStartsWith href "/"
  || (!strStartsWith href "http" && !strStartsWith href "#" && !strStartsWith href "mailto:")

/-- `href.split('?')[0].split('#')[0]`: the href up to its first query or
fragment delimiter. -/
def stripQueryFragment (href : String) : String :=
  String.mk ((href.toList.takeWhile (fun c => c ≠ '?')).takeWhile (fun c => c ≠ '#'))

/-- `GitBookScraper.normalizePath`: strip query and fragment, drop empty
results and static assets, then ensure a leading slash.  Note the static
check runs on the cleaned href BEFORE the leading slash is added. -/
def normalizePath (href : String) : Option String :=
  let cleanHref := stripQueryFragment href
  if cleanHref = "" || cleanHref = "#" then none
  else if isStaticAsset cleanHref then none
  else if strStartsWith cleanHref "/" then some cleanHref
  else some ("/" ++ cleanHref)

/-- `GitBookScraper.extractInternalLinks` over the list of `a[href]` values
of one parsed page: keep internal links, normalize them, drop any whose
full URL is already in `visitedUrls`, and de-duplicate keeping first
occurrences. -/
def extractInternalLinks (visited : List String) (baseUrl : String)
    (hrefs : List String) : List String :=
  jsDedup ((hrefs.filter isInternalLink).filterMap (fun href =>
    match normalizePath href with
    | some p => if (baseUrl ++ p) ∈ visited then none else some p
    | none => none))

/-- `GitBookScraper.discoverFromPath`.  `site p` is the fetch of path `p`:
`some hrefs` for a 2xx HTML response whose anchors carry those hrefs,
`none` for a non-2xx status, a non-HTML content type, or a rejected fetch —
all of which the source logs and turns into an empty link list. -/
def discoverFromPath (site : String → Option (List String)) (visited : List String)
    (baseUrl : String) (p : String) : List String :=
  match site p with
  | some hrefs => extractInternalLinks visited baseUrl hrefs
  | none => []

/-- The local state of `GitBookScraper.discoverUrls`: the pending `queue`,
the `processed` set, and the `discoveredUrls` set (all insertion-ordered). -/
structure DiscState where
  queue : List String
  processed : List String
  discovered : List String
deriving DecidableEq

/-- The inner batch-forming loop of `discoverUrls`: pop up to `cap` paths
off the front of the queue, skipping (and dropping) paths already
processed, and mark each popped path processed.  Returns
(batch, remaining queue, processed). -/
def popBatch : List String → Nat → List String → List String × List String × List String
  | q, 0, pr => ([], q, pr)
  | [], _ + 1, pr => ([], [], pr)
  | h :: t, cap + 1, pr =>
    if h ∈ pr then popBatch t (cap + 1) pr
    else
      let r := popBatch t cap (pr ++ [h])
      (h :: r.1, r.2.1, r.2.2)

/-- The link-enqueueing loop of `discoverUrls`: every collected link not yet
processed and not already queued is appended to the queue and added to
`discoveredUrls`. -/
def enqueueNew (links : List String) (s : DiscState) : DiscState :=
  links.foldl
    (fun st l =>
      if l ∈ st.processed ∨ l ∈ st.queue then st
      else { st with queue := st.queue ++ [l], discovered := st.discovered ++ [l] })
    s

/-- One iteration of the `while (queue.length > 0)` loop of `discoverUrls`:
form a batch, fetch every batch member and extract its links (failures
contribute no links), then enqueue the new links.  An empty batch makes the
source `break`; with a positive batch size that happens exactly when the
pop loop drained the queue, so the returned state then has an empty queue
and the outer loop stops on its guard. -/
def discoverStep (site : String → Option (List String)) (visited : List String)
    (baseUrl : String) (batchSize : Nat) (s : DiscState) : DiscState :=
  let r := popBatch s.queue batchSize s.processed
  if r.1.isEmpty then { queue := r.2.1, processed := r.2.2, discovered := s.discovered }
  else
    let newLinks := r.1.flatMap (discoverFromPath site visited baseUrl)
    enqueueNew newLinks { queue := r.2.1, processed := r.2.2, discovered := s.discovered }

/-- The discovery loop: iterate `discoverStep` while the queue is nonempty.
`fuel` bounds the number of iterations; the termination theorem shows that
`fuel` = the number of distinct candidate paths always suffices to drain
the queue, so the bound is not a behavioural restriction. -/
def discoverLoop (site : String → Option (List String)) (visited : List String)
    (baseUrl : String) (batchSize : Nat) : Nat → DiscState → DiscState
  | 0, s => s
  | fuel + 1, s =>
    if s.queue.isEmpty then s
    else discoverLoop site visited baseUrl batchSize fuel
      (discoverStep site visited baseUrl batchSize s)

/-- `GitBookScraper.discoverUrls` (the debug-only discovery cache disabled):
the queue is seeded with `/`, the root is pre-added to `discoveredUrls`,
and the loop runs with batch size `min(8, maxConcurrentRequests)`.
Discovery runs before any `scrapePage` call, so `visitedUrls` is empty. -/
def discoverUrls (site : String → Option (List String)) (baseUrl : String)
    (batchSize fuel : Nat) : DiscState :=
  discoverLoop site [] baseUrl batchSize fuel ⟨["/"], [], ["/"]⟩

/-- Reachability along discovered links: the root `/` is reachable, and so
is every link extracted (after the internal-link filter, normalization and
the static-asset drop) from a reachable page. -/
inductive Reaches (site : String → Option (List String)) (visited : List String)
    (baseUrl : String) : String → Prop where
  | root : Reaches site visited baseUrl "/"
  | step {p q : String} : Reaches site visited baseUrl p →
      q ∈ discoverFromPath site visited baseUrl p → Reaches site visited baseUrl q

/-- Fixture site of the discovery-completeness claim: pages `/`, `/a`,
`/a/b`, `/c` cross-linked, with an `/assets/style.css` link present on two
of them; every other path fails to fetch. -/
def site1 : String → Option (List String) := fun p =>
  if p = "/" then some ["/a", "/c", "/assets/style.css"]
  else if p = "/a" then some ["/", "/a/b", "/c"]
  else if p = "/a/b" then some ["/a", "/c", "/assets/style.css"]
  else if p = "/c" then some ["/", "/a/b"]
  else none

/-- Fixture site whose root carries the relative href `search`: the cleaned
href does not match any static pattern (the search-endpoint pattern needs a
leading slash), but its normalized form `/search` does. -/
def site2 : String → Option (List String) := fun p =>
  if p = "/" then some ["search"] else none

/-- Invariant of the discovery loop over a finite path universe `U`: the
queue and processed set are duplicate-free and disjoint, `discoveredUrls`
is exactly their union, everything discovered is reachable and inside `U`,
every link of a processed page has been discovered, and the root has been
discovered. -/
structure DiscInv (site : String → Option (List String)) (baseUrl : String)
    (U : List String) (s : DiscState) : Prop where
  qNodup : s.queue.Nodup
  disj : ∀ x ∈ s.queue, x ∉ s.processed
  pNodup : s.processed.Nodup
  cover : ∀ x, x ∈ s.discovered ↔ x ∈ s.processed ∨ x ∈ s.queue
  sound : ∀ x ∈ s.discovered, Reaches site [] baseUrl x
  closed : ∀ p ∈ s.processed, ∀ q ∈ discoverFromPath site [] baseUrl p,
    q ∈ s.discovered
  subU : ∀ x ∈ s.discovered, x ∈ U
  rootMem : "/" ∈ s.discovered

/-- One row of the `pages` table of `SQLiteStore.initializeSchema`:
`path TEXT PRIMARY KEY` plus the twelve content columns, and the implicit
SQLite `rowid`.  The `code_blocks TEXT` cell holds the JSON serialization
of the code-block list; its cell type is the parameter `α` so that the
external `JSON.stringify` / `JSON.parse` pair enters as an
encoder/decoder.  The `section` column is rendered `sectionCol` (`section`
is a Lean keyword); `INTEGER` timestamp columns are epoch milliseconds. -/
structure PagesRow (α : Type) where
  rowid : Nat
  path : String
  title : String
  content : String
  raw_html : String
  markdown : String
  code_blocks : α
  sectionCol : String
  subsection : Option String
  url : String
  last_updated : Int
  content_hash : String
  last_checked : Int
  searchable_text : String
deriving DecidableEq

/-- One row of the `pages_fts` FTS5 index
(`path, title, searchable_text, section, subsection`, content table
`pages`, rowid-linked). -/
structure FtsRow where
  rowid : Nat
  path : String
  title : String
  searchable_text : String
  sectionCol : String
  subsection : Option String
deriving DecidableEq

/-- The store file: the `pages` table, the `pages_fts` index, and the next
rowid SQLite will assign.  (The `metadata` table and the in-memory search
cache are not involved in any claim and are omitted.) -/
structure Db (α : Type) where
  pages : List (PagesRow α)
  pages_fts : List FtsRow
  nextRowid : Nat
deriving DecidableEq

/-- The `pages_ai` AFTER INSERT trigger: the index row inserted into
`pages_fts` for a newly inserted `pages` row. -/
def pagesAiTrigger {α : Type} (r : PagesRow α) : FtsRow :=
  ⟨r.rowid, r.path, r.title, r.searchable_text, r.sectionCol, r.subsection⟩

/-- One `INSERT OR REPLACE INTO pages ...` statement as `updateContent`
prepares it, with the trigger semantics SQLite gives it: the REPLACE
conflict resolution first deletes any row with the conflicting primary key
— and delete triggers fire on such implicit deletes only when
`PRAGMA recursive_triggers` is on, which better-sqlite3 leaves at the
SQLite default (off), so `pages_ad` does NOT fire — then the row is
inserted with a fresh rowid and `pages_ai` fires for it.  The `nextRowid`
counter models the rowid SQLite assigns (one more than the largest rowid
in use); it agrees with SQLite exactly as long as the replaced row is not
the one holding the maximal rowid, and the evaluated scenario stays inside
that regime. -/
def insertOrReplacePage {α : Type} (db : Db α) (r0 : PagesRow α) : Db α :=
  let remaining := db.pages.filter (fun p => p.path != r0.path)
  let row := { r0 with rowid := db.nextRowid }
  { pages := remaining ++ [row],
    pages_fts := db.pages_fts ++ [pagesAiTrigger row],
    nextRowid := db.nextRowid + 1 }

/-- JavaScript `x || null` / `x || undefined` on an optional string: an
absent value and the empty string (both falsy) collapse to the null side. -/
def jsFalsyToNull (s : Option String) : Option String :=
  match s with
  | some v => if v = "" then none else some v
  | none => none

/-- The bound parameter list of the `updateContent` insert statement, in
column order: `page.subsection || null` for the nullable column, the two
`Date` fields via `getTime()` (epoch milliseconds), and the code blocks
through the JSON encoder `enc`.  The rowid placeholder is overwritten at
insertion. -/
def pageToRow {α : Type} (enc : List CodeBlock → α) (p : GitBookPage) : PagesRow α :=
  { rowid := 0, path := p.path, title := p.title, content := p.content,
    raw_html := p.rawHtml, markdown := p.markdown, code_blocks := enc p.codeBlocks,
    sectionCol := p.sectionName, subsection := jsFalsyToNull p.subsection,
    url := p.url, last_updated := p.lastUpdated, content_hash := p.contentHash,
    last_checked := p.lastChecked, searchable_text := p.searchableText }

/-- `SQLiteStore.updateContent`: one transaction running the prepared
`INSERT OR REPLACE` once per page, in order.  (The subsequent `metadata`
writes and the search-cache clear touch no claimed state and are
omitted.) -/
def updateContent {α : Type} (enc : List CodeBlock → α) (db : Db α)
    (pages : List GitBookPage) : Db α :=
  pages.foldl (fun d p => insertOrReplacePage d (pageToRow enc p)) db

/-- `SQLiteStore.rowToPage`: read a row back into a `GitBookPage`.
`row.subsection || undefined` is the same falsy coercion as on the write
side; `new Date(ms)` keeps the millisecond value; the `row.code_blocks ||
'[]'` fallback is dead (the column is NOT NULL and `JSON.stringify` of an
array is never the empty string), so the cell goes straight through the
JSON decoder `dec`. -/
def rowToPage {α : Type} (dec : α → List CodeBlock) (r : PagesRow α) : GitBookPage :=
  { path := r.path, title := r.title, content := r.content, rawHtml := r.raw_html,
    markdown := r.markdown, codeBlocks := dec r.code_blocks,
    sectionName := r.sectionCol, subsection := jsFalsyToNull r.subsection,
    url := r.url, lastUpdated := r.last_updated, contentHash := r.content_hash,
    lastChecked := r.last_checked, searchableText := r.searchable_text }

/-- `SQLiteStore.getPage`: `SELECT * FROM pages WHERE path = ?`, first
matching row through `rowToPage`. -/
def getPage {α : Type} (dec : α → List CodeBlock) (db : Db α) (path : String) :
    Option GitBookPage :=
  (db.pages.find? (fun r => r.path == path)).map (rowToPage dec)

/-- The empty store, as `initializeSchema` leaves a fresh database
(SQLite assigns rowids from 1). -/
def dbEmpty : Db (List CodeBlock) := ⟨[], [], 1⟩

/-- A concrete page at path `/x` with the given searchable text, used to
evaluate the store model on a re-ingestion scenario. -/
def samplePage (searchable : String) : GitBookPage :=
  { path := "/x", title := "X", content := "body", rawHtml := "<p>body</p>",
    markdown := "body", codeBlocks := [], sectionName := "X", subsection := none,
    url := "https://docs.example.com/x", lastUpdated := 0, contentHash := "h",
    lastChecked := 0, searchableText := searchable }

/-- A second concrete page at path `/y`; its presence keeps the maximal
rowid alive across the re-ingestion of `/x`, so the fresh-rowid modelling
of `insertOrReplacePage` is exact for the scenario. -/
def samplePageY : GitBookPage :=
  { path := "/y", title := "Y", content := "other", rawHtml := "<p>other</p>",
    markdown := "other", codeBlocks := [], sectionName := "Y", subsection := none,
    url := "https://docs.example.com/y", lastUpdated := 0, contentHash := "hy",
    lastChecked := 0, searchableText := "other" }

/-- Tokenizer of `generateSnippet`: `query.split(/\s+/)`.  The split
separators are maximal whitespace runs; a leading or trailing run
contributes an empty piece (JavaScript `split` semantics), and splitting
the empty string yields one empty piece.  `skipping = true` means the scan
stands inside a whitespace run. -/
def jsSplitWsAux (skipping : Bool) (buf : List Char) : List Char → List (List Char)
  | [] => if skipping then [[]] else [buf.reverse]
  | c :: t =>
    if skipping then
      if c.isWhitespace then jsSplitWsAux true [] t
      else jsSplitWsAux false [c] t
    else
      if c.isWhitespace then buf.reverse :: jsSplitWsAux true [] t
      else jsSplitWsAux false (c :: buf) t

/-- JavaScript `String.prototype.split(/\s+/)` on a character list. -/
def jsSplitWs (l : List Char) : List (List Char) := jsSplitWsAux false [] l

/-- Scanner behind `jsIndexOf`: the index (counting from `i`) of the first
position where `needle` is a prefix of the remaining text. -/
def jsIndexOfAux (needle : List Char) : List Char → Nat → Option Nat
  | [], i => if needle.isPrefixOf ([] : List Char) then some i else none
  | h :: t, i =>
    if needle.isPrefixOf (h :: t) then some i else jsIndexOfAux needle t (i + 1)

/-- JavaScript `String.prototype.indexOf`: `some` of the first match
position, `none` where the source returns `-1`.  As in JavaScript, an
empty needle matches at position 0. -/
def jsIndexOf (hay needle : List Char) : Option Nat := jsIndexOfAux needle hay 0

/-- The query words of `SQLiteStore.generateSnippet`:
`query.toLowerCase().split(/\s+/)`. -/
def gsWords (query : String) : List (List Char) := jsSplitWs (lcList query.toList)

/-- One loop iteration of the `bestIndex` scan of `generateSnippet`: keep
the smaller of the held best position and the `indexOf` position of the
next query word (`some` where the source holds an index, `none` for its
`-1`). -/
def gsBestStep (lowerContent : List Char) (best : Option Nat) (w : List Char) : Option Nat :=
  match jsIndexOf lowerContent w, best with
  | some i, none => some i
  | some i, some b => if i < b then some i else some b
  | none, b => b

/-- The `bestIndex` scan of `generateSnippet`: fold over the query words,
keeping the smallest found `indexOf` position in the lowercased content. -/
def gsBestIndex (content query : String) : Option Nat :=
  (gsWords query).foldl (gsBestStep (lcList content.toList)) none

/-- `SQLiteStore.generateSnippet` with its default `maxLength = 300` (the
only way `search` calls it).  No query word found: the leading 300
characters, with an ellipsis when the content is longer.  Word found at
`bestIndex`: the substring from `max(0, bestIndex - 50)` of length at most
300, with ellipses marking a trimmed start or end. -/
def generateSnippet (content query : String) : String :=
  let cs := content.toList
  match gsBestIndex content query with
  | none => String.mk (cs.take 300) ++ (if 300 < cs.length then "..." else "")
  | some bi =>
    let start := bi - 50
    let stop := min cs.length (start + 300)
    (if 0 < start then "..." else "")
      ++ String.mk ((cs.drop start).take (stop - start))
      ++ (if stop < cs.length then "..." else "")

/-- The options object `GitBookScraper.fetchWithHeaders` passes to `fetch`.
`timeoutMs` models any timeout mechanism attached to the request (an
`AbortSignal.timeout`, a `signal`, or a library timeout option); `none`
means the request carries no timeout at all. -/
structure RequestOpts where
  redirect : String
  headers : List (String × String)
  timeoutMs : Option Nat
deriving DecidableEq

/-- The literal argument of the `fetch` call in
`GitBookScraper.fetchWithHeaders` — a redirect policy and six headers; no
timeout, no abort signal. -/
def fetchWithHeadersOpts : RequestOpts :=
  { redirect := "follow",
    headers :=
      [("User-Agent", "Mozilla/5.0 (Windows NT 10.0; Win64; x64) AppleWebKit/537.36 (KHTML, like Gecko) Chrome/120.0.0.0 Safari/537.36"),
        ("Accept", "text/html,application/xhtml+xml,application/xml;q=0.9,*/*;q=0.8"),
        ("Accept-Language", "en-US,en;q=0.5"),
        ("Accept-Encoding", "gzip, deflate"),
        ("Connection", "keep-alive"),
        ("Upgrade-Insecure-Requests", "1")],
    timeoutMs := none }

/-- The scraping-relevant scalars of `GitBookConfig` (`config.ts`).  The
server-identity and logging fields take no part in any claim and are
omitted. -/
structure GitBookConfig where
  gitbookUrl : String
  cacheTtlHours : Int
  cacheFile : String
  scrapingDelayMs : Int
  maxRetries : Int
  requestTimeoutMs : Int
  maxConcurrentRequests : Int
deriving DecidableEq

/-- `gitBookConfig` with every environment variable unset: the documented
defaults. -/
def gitBookConfigDefaults : GitBookConfig :=
  { gitbookUrl := "https://docs.kynesys.xyz", cacheTtlHours := 1,
    cacheFile := ".gitbook-cache.json", scrapingDelayMs := 100, maxRetries := 3,
    requestTimeoutMs := 30000, maxConcurrentRequests := 5 }

/-- The checks of `validateConfig` as a predicate (the source throws on the
first violated check; the `new URL` well-formedness probe is external and
rendered as nonemptiness, the only part of it the claims touch). -/
def validateConfigOk (c : GitBookConfig) : Bool :=
  c.gitbookUrl ≠ "" && c.cacheTtlHours ≥ 0 && c.scrapingDelayMs ≥ 0
    && c.maxRetries ≥ 0 && c.requestTimeoutMs ≥ 1000 && c.maxConcurrentRequests ≥ 1

/-- The always-failing path inputs of the retry-ceiling scenario: the main
ingestion pass over the single path `/p`, every fetch of which rejects with
a network error. -/
def c3MainPass : ScraperState × Nat :=
  scrapePageSafe 3 (scrapePageAct env0 FetchReply.netError baseUrl0 "/p" false) "/p" st0

/-- The end-of-run retry pass following `c3MainPass`, with every fetch still
rejecting. -/
def c3RetryPass : ScraperState × Nat :=
  retryFailedPages 3 (fun p force => scrapePageAct env0 FetchReply.netError baseUrl0 p force)
    c3MainPass.1

/-- Snippet counterexample content: 100 `a`s, then 260 `b`s, then 60 `a`s
(420 characters). -/
def c0 : String :=
  String.mk (List.replicate 100 'a' ++ List.replicate 260 'b' ++ List.replicate 60 'a')

/-- Snippet counterexample query: a single 260-character term (`b` × 260),
which occurs verbatim in `c0` at position 100. -/
def q0 : String := String.mk (List.replicate 260 'b')

/-- A concrete page with every kind of field populated — a code block, a
subsection, millisecond timestamps — used to witness the store
round-trip. -/
def p0 : GitBookPage :=
  { path := "/guide/intro", title := "Guide", content := "how to start",
    rawHtml := "<p>how to start</p>", markdown := "how to start",
    codeBlocks := [⟨"js", "x = 1", none, false⟩, ⟨"bash", "echo hi", some "run", true⟩],
    sectionName := "Guide", subsection := some "intro",
    url := "https://docs.example.com/guide/intro", lastUpdated := 1700000000123,
    contentHash := "abc123", lastChecked := 1700000000456,
    searchableText := "guid how to start" }

/-! ## Theorems -/

/-- C1 counterexample: the fingerprint hashes the bare concatenation
`content + title`, and concatenation is not injective on pairs — the pages
`(plainText, title) = ("ab", "c")` and `("a", "bc")` differ, yet the
scraper feeds the identical string `"abc"` to SHA-256 for both, so their
`contentFingerprint` values coincide.  This refutes the claim that any two
pages with different `(plainText, title)` pairs get different
fingerprints. -/
theorem C1_concat_collision :
    fingerprintInput "ab" "c" = fingerprintInput "a" "bc" ∧
      (("ab", "c") : String × String) ≠ ("a", "bc") := by
  constructor
  · decide
  · decide

/-- C1 (amended): the fingerprint distinguishes exactly the concatenations
— whenever `plainText ++ title` differs between two pages (in particular
whenever the plain text changes under a fixed title, or the title changes
under a fixed plain text), a collision-free digest gives different
`contentFingerprint` values. -/
theorem C1_fingerprint_sensitive (sha256hex : String → String)
    (hinj : Function.Injective sha256hex) (c1 t1 c2 t2 : String)
    (hne : fingerprintInput c1 t1 ≠ fingerprintInput c2 t2) :
    contentFingerprint sha256hex c1 t1 ≠ contentFingerprint sha256hex c2 t2 :=
  fun h => hne (hinj h)

/-- Witness for `C1_fingerprint_sensitive` at a concrete collision-free
digest and concrete pages differing only in the title. -/
theorem C1_fingerprint_sensitive_witness :
    contentFingerprint id "body" "Title A" ≠ contentFingerprint id "body" "Title B" :=
  C1_fingerprint_sensitive id (fun _ _ h => h) "body" "Title A" "body" "Title B" (by decide)

/-- C5: re-ingesting an already stored path leaves the store inconsistent —
after writing pages `/x` and `/y` and then writing `/x` again via
`updateContent`, the `pages` table holds two rows but `pages_fts` holds
three, and one index row references a rowid no `pages` row has:
`INSERT OR REPLACE` deleted the old `/x` row without firing the `pages_ad`
trigger (delete triggers fire on REPLACE-deletes only under
`PRAGMA recursive_triggers`, which is never enabled), while `pages_ai`
added a second index row for `/x`. -/
theorem C5_fts_stale_after_reupsert :
    (updateContent id (updateContent id dbEmpty [samplePage "one", samplePageY]) [samplePage "two"]).pages.length = 2 ∧
      (updateContent id (updateContent id dbEmpty [samplePage "one", samplePageY]) [samplePage "two"]).pages_fts.length = 3 ∧
      ∃ f ∈ (updateContent id (updateContent id dbEmpty [samplePage "one", samplePageY]) [samplePage "two"]).pages_fts,
        ∀ r ∈ (updateContent id (updateContent id dbEmpty [samplePage "one", samplePageY]) [samplePage "two"]).pages,
          f.rowid ≠ r.rowid := by
  decide

/-- C9: no fetch issued by the core carries a timeout.  The options object
built by `fetchWithHeaders` — the single entry point for every page fetch
of scraping, change detection and discovery — has no timeout and no abort
signal, while the configuration both defaults `requestTimeoutMs` to
30000 ms and validates it to be at least 1000 ms; the configured value is
never applied to a request. -/
theorem C9_timeout_never_applied :
    fetchWithHeadersOpts.timeoutMs = none ∧
      gitBookConfigDefaults.requestTimeoutMs = 30000 ∧
      validateConfigOk gitBookConfigDefaults = true := by
  decide

/-- Delays slept by the retry loop: the delay recorded before the retry with
counter `rc + k` is `backoffDelay (rc + k)`. -/
theorem retryLoop_delays_getD (act : ScraperState → Except ScraperState ScraperState)
    (path : String) :
    ∀ fuel rc st k, k < (retryLoop act path rc fuel st).delays.length →
      (retryLoop act path rc fuel st).delays.getD k 0 = backoffDelay (rc + k) := by
  intro fuel
  induction fuel with
  | zero =>
    intro rc st k hk
    cases h : act st with
    | ok st1 => simp [retryLoop, h] at hk
    | error st1 => simp [retryLoop, h] at hk
  | succ f ih =>
    intro rc st k hk
    cases h : act st with
    | ok st1 => simp [retryLoop, h] at hk
    | error st1 =>
      simp only [retryLoop, h] at hk ⊢
      cases k with
      | zero => simp
      | succ k =>
        have hk1 : k < (retryLoop act path (rc + 1) f st1).delays.length := by
          simpa using hk
        simpa [Nat.add_assoc, Nat.add_comm 1 k] using ih (rc + 1) st1 k hk1

/-- C8: the delay slept before retry attempt `k` (0-based) of a failing
page fetch is exactly `min(1000 * 2^k, 10000)` milliseconds — exponential
backoff with base 1000 ms, capped at 10000 ms. -/
theorem C8_backoff_formula (maxRetries : Nat)
    (act : ScraperState → Except ScraperState ScraperState) (path : String)
    (st : ScraperState) (k : Nat)
    (hk : k < (scrapePageWithRetry maxRetries act path st).delays.length) :
    (scrapePageWithRetry maxRetries act path st).delays.getD k 0 =
        min (1000 * 2 ^ k) 10000 ∧
      (scrapePageWithRetry maxRetries act path st).delays.getD k 0 ≤ 10000 := by
  have h := retryLoop_delays_getD act path maxRetries 0 st k hk
  constructor
  · simpa [scrapePageWithRetry, backoffDelay] using h
  · unfold scrapePageWithRetry
    rw [h]
    exact Nat.min_le_right _ _

/-- Witness for `C8_backoff_formula`: an always-rejecting page action with
`maxRetries = 3` sleeps `min(1000 * 2^2, 10000) = 4000` ms before its third
retry. -/
theorem C8_backoff_formula_witness :
    (scrapePageWithRetry 3 actFail "/p" st0).delays.getD 2 0 = min (1000 * 2 ^ 2) 10000 ∧
      (scrapePageWithRetry 3 actFail "/p" st0).delays.getD 2 0 ≤ 10000 :=
  C8_backoff_formula 3 actFail "/p" st0 2 (by decide)

/-- C3: evaluation of the full pipeline on a path whose every fetch rejects
(`netError`), with `maxRetries = 3`.  Because `scrapePage` swallows all of
its failures, the engine observes a success after ONE attempt and no delay,
the end-of-run retry pass finds an empty queue and makes no attempt, no
page is stored, and `getFailureStats` reports no failed paths and zero
retries — the path is never retried and never reported, contradicting the
claimed `maxRetries` retries plus one retry-pass attempt plus a failure
report. -/
theorem C3_failing_path_never_retried_never_reported :
    getFailureStats c3RetryPass.1 = ([], 0) ∧
      c3MainPass.2 = 1 ∧ c3RetryPass.2 = 0 ∧
      c3RetryPass.1.content = [] ∧
      (scrapePageWithRetry 3 (scrapePageAct env0 FetchReply.netError baseUrl0 "/p" false)
        "/p" st0).delays = [] := by
  decide

/-- C6: evaluation of the retry engine on one page with `maxRetries = 3`
under each failure class.  An HTTP 500 response, a rejected fetch (network
error / timeout) and an HTTP 404 all behave identically: one single
attempt, no backoff delay, the engine records a success (`ok = true`,
because `scrapePage` caught and swallowed the failure), and no page is
stored.  Server errors and network errors are thus never retried,
contradicting the claimed retry-with-backoff for failures `≥ 500`; only
the non-retryable half of the claim (4xx and non-HTML short-circuit with a
single attempt) matches the code. -/
theorem C6_server_errors_not_retried :
    (scrapePageWithRetry 3 (scrapePageAct env0 (FetchReply.httpError 500) baseUrl0 "/p" false)
        "/p" st0).attempts = 1 ∧
      (scrapePageWithRetry 3 (scrapePageAct env0 (FetchReply.httpError 500) baseUrl0 "/p" false)
        "/p" st0).delays = [] ∧
      (scrapePageWithRetry 3 (scrapePageAct env0 (FetchReply.httpError 500) baseUrl0 "/p" false)
        "/p" st0).ok = true ∧
      (scrapePageWithRetry 3 (scrapePageAct env0 (FetchReply.httpError 500) baseUrl0 "/p" false)
        "/p" st0).state.content = [] ∧
      (scrapePageWithRetry 3 (scrapePageAct env0 FetchReply.netError baseUrl0 "/p" false)
        "/p" st0).attempts = 1 ∧
      (scrapePageWithRetry 3 (scrapePageAct env0 FetchReply.netError baseUrl0 "/p" false)
        "/p" st0).ok = true ∧
      (scrapePageWithRetry 3 (scrapePageAct env0 (FetchReply.httpError 404) baseUrl0 "/p" false)
        "/p" st0).attempts = 1 ∧
      (scrapePageWithRetry 3
        (scrapePageAct env0 (FetchReply.ok "application/json" "t" "c" "r" "m" []) baseUrl0 "/p" false)
        "/p" st0).state.content = [] := by
  decide

/-- The change-detection loop, characterized at every retry counter: when
the loop reaches a 2xx reply it returns the stored page with (only)
`lastChecked` set to now, flagged changed exactly when the fresh
fingerprint differs from the stored `contentHash`; when it gives up it
returns the stored page untouched and unflagged. -/
theorem checkLoop_spec (sha256hex : String → String) (now : Int) (page : GitBookPage)
    (replies : Nat → FetchReply) :
    ∀ fuel rc,
      match checkOutcome replies rc fuel with
      | none => checkLoop sha256hex now page replies rc fuel = (page, false)
      | some (t, c) =>
        checkLoop sha256hex now page replies rc fuel =
          ({ page with lastChecked := now },
            contentFingerprint sha256hex c t != page.contentHash) := by
  intro fuel
  induction fuel with
  | zero => intro rc; simp [checkLoop, checkOutcome]
  | succ f ih =>
    intro rc
    cases hr : replies rc with
    | ok ct t c rh md cb =>
      simp [checkLoop, checkOutcome, hr]
    | httpError s =>
      by_cases h : 500 ≤ s ∧ rc < 2
      · simpa only [checkLoop, checkOutcome, hr, if_pos h] using ih (rc + 1)
      · simp [checkLoop, checkOutcome, hr, h]
    | netError =>
      by_cases h : rc < 2
      · simpa only [checkLoop, checkOutcome, hr, if_pos h] using ih (rc + 1)
      · simp [checkLoop, checkOutcome, hr, h]

/-- C2: for every known path checked by change detection — whatever
sequence of fetch outcomes its up-to-3 attempts produce — if the re-fetch
ultimately succeeds (reaches a 2xx reply under the quick-retry policy,
with extracted title `t` and text `c`), the stored page is modified only
in `lastChecked` (every other field, including content, `contentHash` and
`lastUpdated`, is untouched) and the path is marked changed iff the
freshly computed fingerprint differs from the stored `contentHash`; if
every permitted attempt fails, the stored page is returned exactly as it
was, unflagged, with `lastChecked` not bumped. -/
theorem C2_change_check_frame (sha256hex : String → String) (now : Int)
    (page : GitBookPage) (replies : Nat → FetchReply) :
    match checkOutcome replies 0 3 with
    | none => checkPageForChanges sha256hex now page replies = (page, false)
    | some (t, c) =>
      checkPageForChanges sha256hex now page replies =
        ({ page with lastChecked := now },
          contentFingerprint sha256hex c t != page.contentHash) :=
  checkLoop_spec sha256hex now page replies 3 0

set_option maxRecDepth 100000 in
/-- C4 counterexample: discovery does not drop every path matching a
static-asset pattern.  On the fixture whose root links the relative href
`search`, the discovered set contains `/search`, although `/search`
matches the search-endpoint static pattern — the filter ran on the cleaned
href `search` (no leading slash, so the anchored pattern missed) before
normalization prepended the slash. -/
theorem C4_relative_href_evades_static_filter :
    "/search" ∈ (discoverUrls site2 baseUrl0 5 2).discovered ∧
      isStaticAsset "/search" = true := by
  decide

set_option maxRecDepth 1000000 in
/-- C7 counterexample: a verbatim-occurring query term need not be
contained in the snippet.  The single 260-character query term `q0` occurs
(case-insensitively) in the 420-character content `c0` at position 100,
but the returned snippet — the window `[50, 350)` around that position —
holds only the first 250 characters of the occurrence, so the snippet does
not contain the occurrence (under exact or case-insensitive comparison). -/
theorem C7_long_term_not_contained :
    gsWords q0 = [q0.toList] ∧
      containsSub (strLower c0) (strLower q0) = true ∧
      containsSub (generateSnippet c0 q0) q0 = false ∧
      containsSub (strLower (generateSnippet c0 q0)) (strLower q0) = false := by
  decide

/-- Filtering with a predicate implied by the search predicate does not
change the first hit. -/
theorem find?_filter_of_imp {α : Type} (p q : α → Bool) (l : List α)
    (h : ∀ x, p x = true → q x = true) :
    (l.filter q).find? p = l.find? p := by
  induction l with
  | nil => rfl
  | cons a t ih =>
    by_cases hq : q a = true
    · by_cases hp : p a = true
      · rw [List.filter_cons_of_pos hq, List.find?_cons_of_pos _ hp,
          List.find?_cons_of_pos _ hp]
      · rw [List.filter_cons_of_pos hq, List.find?_cons_of_neg _ hp,
          List.find?_cons_of_neg _ hp, ih]
    · have hp : ¬p a = true := fun hc => hq (h a hc)
      rw [List.filter_cons_of_neg hq, List.find?_cons_of_neg _ hp, ih]

/-- Writing a row for a different path does not change what `getPage`
returns. -/
theorem getPage_insert_other {α : Type} (dec : α → List CodeBlock) (db : Db α)
    (r : PagesRow α) (path : String) (h : r.path ≠ path) :
    getPage dec (insertOrReplacePage db r) path = getPage dec db path := by
  unfold getPage insertOrReplacePage
  simp only [List.find?_append]
  have h1 : (db.pages.filter (fun p => p.path != r.path)).find?
      (fun x => x.path == path) = db.pages.find? (fun x => x.path == path) := by
    apply find?_filter_of_imp
    intro x hx
    have hxp : x.path = path := by simpa using hx
    simp [hxp]
    exact fun hc => h hc.symm
  have h2 : List.find? (fun x => x.path == path) [{ r with rowid := db.nextRowid }] = none := by
    rw [List.find?_cons_of_neg _ (by simpa using h)]
    rfl
  rw [h1, h2]
  simp

/-- Writing a row and reading its own path back returns exactly that row
(with the freshly assigned rowid). -/
theorem getPage_insert_self {α : Type} (dec : α → List CodeBlock) (db : Db α)
    (r : PagesRow α) :
    getPage dec (insertOrReplacePage db r) r.path =
      some (rowToPage dec { r with rowid := db.nextRowid }) := by
  unfold getPage insertOrReplacePage
  simp only [List.find?_append]
  have h1 : (db.pages.filter (fun p => p.path != r.path)).find?
      (fun x => x.path == r.path) = none := by
    rw [List.find?_eq_none]
    intro x hx
    have := List.of_mem_filter hx
    simpa using this
  have h2 : List.find? (fun x => x.path == r.path) [{ r with rowid := db.nextRowid }] =
      some { r with rowid := db.nextRowid } := by
    rw [List.find?_cons_of_pos _ (by simp)]
  rw [h1, h2]
  simp

/-- A bulk write touching none of the rows at `path` leaves `getPage path`
unchanged. -/
theorem getPage_updateContent_not_mem {α : Type} (enc : List CodeBlock → α)
    (dec : α → List CodeBlock) (db : Db α) (pages : List GitBookPage)
    (path : String) (h : ∀ q ∈ pages, q.path ≠ path) :
    getPage dec (updateContent enc db pages) path = getPage dec db path := by
  induction pages generalizing db with
  | nil => rfl
  | cons q rest ih =>
    have step : updateContent enc db (q :: rest) =
        updateContent enc (insertOrReplacePage db (pageToRow enc q)) rest := rfl
    rw [step, ih _ (fun a ha => h a (List.mem_cons_of_mem _ ha)),
      getPage_insert_other]
    exact h q (List.mem_cons_self _ _)

/-- Reading back the row written for a page reproduces the page: the JSON
codec inverts on its code blocks, the falsy coercion on a non-empty
subsection is the identity, and every other column is copied verbatim. -/
theorem rowToPage_pageToRow {α : Type} (enc : List CodeBlock → α)
    (dec : α → List CodeBlock) (p : GitBookPage) (rid : Nat)
    (hcodec : dec (enc p.codeBlocks) = p.codeBlocks)
    (hsub : p.subsection ≠ some "") :
    rowToPage dec { pageToRow enc p with rowid := rid } = p := by
  have hsub2 : jsFalsyToNull (jsFalsyToNull p.subsection) = p.subsection := by
    cases h : p.subsection with
    | none => simp [jsFalsyToNull]
    | some v =>
      have hv : ¬v = "" := by
        intro hv
        exact hsub (by rw [h, hv])
      simp [jsFalsyToNull, hv]
  cases p with
  | mk path title content rawHtml markdown codeBlocks sectionName subsection url
      lastUpdated contentHash lastChecked searchableText =>
    simp_all [rowToPage, pageToRow]

/-- C10: store round-trip.  For any bulk write whose pages have pairwise
distinct paths, any written page `p` (whose subsection is not the falsy
empty string, and on whose code blocks the JSON codec inverts) is returned
by `getPage p.path` with every field equal to the original — timestamps to
the millisecond through the epoch encoding, code blocks through the JSON
codec, subsections through the NULL coercion. -/
theorem C10_store_roundtrip {α : Type} (enc : List CodeBlock → α)
    (dec : α → List CodeBlock) (db : Db α) (pages : List GitBookPage)
    (p : GitBookPage) (hmem : p ∈ pages)
    (hnodup : (pages.map GitBookPage.path).Nodup)
    (hcodec : dec (enc p.codeBlocks) = p.codeBlocks)
    (hsub : p.subsection ≠ some "") :
    getPage dec (updateContent enc db pages) p.path = some p := by
  induction pages generalizing db with
  | nil => cases hmem
  | cons q rest ih =>
    have step : updateContent enc db (q :: rest) =
        updateContent enc (insertOrReplacePage db (pageToRow enc q)) rest := rfl
    rw [List.map_cons] at hnodup
    have hnd := List.nodup_cons.mp hnodup
    rcases List.mem_cons.mp hmem with rfl | hmem2
    · have hrest : ∀ a ∈ rest, a.path ≠ p.path := by
        intro a ha hap
        exact hnd.1 (by
          rw [← hap]
          exact List.mem_map_of_mem GitBookPage.path ha)
      rw [step, getPage_updateContent_not_mem _ _ _ _ _ hrest]
      have hval := rowToPage_pageToRow enc dec p db.nextRowid hcodec hsub
      calc getPage dec (insertOrReplacePage db (pageToRow enc p)) p.path
          = some (rowToPage dec { pageToRow enc p with rowid := db.nextRowid }) :=
            getPage_insert_self dec db (pageToRow enc p)
        _ = some p := by rw [hval]
    · rw [step]
      exact ih _ hmem2 hnd.2

/-- Witness for `C10_store_roundtrip`: a concrete page with code blocks, a
subsection and millisecond timestamps survives the write/read cycle. -/
theorem C10_store_roundtrip_witness :
    getPage id (updateContent id dbEmpty [p0]) p0.path = some p0 :=
  C10_store_roundtrip id id dbEmpty [p0] p0 (List.mem_singleton_self p0)
    (by decide) rfl (by decide)

/-- Soundness of the `indexOf` scanner: a hit at `j` (scanning from offset
`i`) lies at or after `i`, within the text, and the needle is a prefix of
the text dropped to the hit. -/
theorem jsIndexOfAux_spec (needle : List Char) :
    ∀ (hay : List Char) (i j : Nat), jsIndexOfAux needle hay i = some j →
      i ≤ j ∧ j - i ≤ hay.length ∧ needle.isPrefixOf (hay.drop (j - i)) = true := by
  intro hay
  induction hay with
  | nil =>
    intro i j h
    by_cases hp : needle.isPrefixOf ([] : List Char) = true
    · simp only [jsIndexOfAux, hp, if_true, Option.some_inj] at h
      subst h
      simpa using hp
    · simp [jsIndexOfAux, hp] at h
  | cons c t ih =>
    intro i j h
    by_cases hp : needle.isPrefixOf (c :: t) = true
    · simp only [jsIndexOfAux, hp, if_true, Option.some_inj] at h
      subst h
      simpa using hp
    · simp only [jsIndexOfAux, hp, if_false] at h
      obtain ⟨h1, h2, h3⟩ := ih (i + 1) j h
      refine ⟨by omega, by simp; omega, ?_⟩
      have hd : (c :: t).drop (j - i) = t.drop (j - (i + 1)) := by
        have : j - i = (j - (i + 1)) + 1 := by omega
        rw [this]
        rfl
      rw [hd]
      exact h3

/-- Soundness of `jsIndexOf`: a hit position is inside the text and the
needle occurs there. -/
theorem jsIndexOf_spec (hay needle : List Char) (j : Nat)
    (h : jsIndexOf hay needle = some j) :
    j ≤ hay.length ∧ needle <+: hay.drop j := by
  obtain ⟨_, h2, h3⟩ := jsIndexOfAux_spec needle hay 0 j h
  rw [Nat.sub_zero] at h2 h3
  exact ⟨h2, List.isPrefixOf_iff_prefix.mp h3⟩

/-- A `bestIndex` step yields `none` exactly when it held nothing and found
nothing. -/
theorem gsBestStep_none_iff (lc : List Char) (acc : Option Nat) (w : List Char) :
    gsBestStep lc acc w = none ↔ acc = none ∧ jsIndexOf lc w = none := by
  cases hw : jsIndexOf lc w with
  | none => cases acc <;> simp [gsBestStep, hw]
  | some i =>
    cases acc with
    | none => simp [gsBestStep, hw]
    | some b => by_cases hib : i < b <;> simp [gsBestStep, hw, hib]

/-- A `bestIndex` step yielding `some bi` is a running minimum: `bi` is
attained by the held value or by the found position of the scanned word,
and it is a lower bound of both. -/
theorem gsBestStep_some_spec (lc : List Char) (acc : Option Nat) (w : List Char)
    (bi : Nat) (h : gsBestStep lc acc w = some bi) :
    (acc = some bi ∨ jsIndexOf lc w = some bi) ∧
      (∀ b, acc = some b → bi ≤ b) ∧
      (∀ j, jsIndexOf lc w = some j → bi ≤ j) := by
  cases hw : jsIndexOf lc w with
  | none =>
    cases acc with
    | none => simp [gsBestStep, hw] at h
    | some b =>
      simp [gsBestStep, hw] at h
      subst h
      refine ⟨Or.inl rfl, fun b hb => ?_, fun j hj => by simp [hw] at hj⟩
      cases hb
      exact Nat.le_refl _
  | some i =>
    cases acc with
    | none =>
      simp [gsBestStep, hw] at h
      subst h
      refine ⟨Or.inr rfl, fun b hb => Option.noConfusion hb, fun j hj => ?_⟩
      cases hj
      exact Nat.le_refl _
    | some b =>
      by_cases hib : i < b
      · simp [gsBestStep, hw, hib] at h
        subst h
        refine ⟨Or.inr rfl, fun b0 hb0 => ?_, fun j hj => ?_⟩
        · cases hb0
          omega
        · cases hj
          exact Nat.le_refl _
      · simp [gsBestStep, hw, hib] at h
        subst h
        refine ⟨Or.inl rfl, fun b0 hb0 => ?_, fun j hj => ?_⟩
        · cases hb0
          exact Nat.le_refl _
        · cases hj
          omega

/-- The `bestIndex` fold is a running minimum: a `none` result means no
word was found; a `some bi` result is attained by the accumulator or by
some word of the list, is at most any held accumulator value, and is at
most every found word position. -/
theorem gsBestStep_foldl_spec (lc : List Char) (ws : List (List Char)) :
    ∀ acc : Option Nat,
      (ws.foldl (gsBestStep lc) acc = none →
        acc = none ∧ ∀ w ∈ ws, jsIndexOf lc w = none) ∧
      (∀ bi, ws.foldl (gsBestStep lc) acc = some bi →
        (acc = some bi ∨ ∃ w ∈ ws, jsIndexOf lc w = some bi) ∧
        (∀ b0, acc = some b0 → bi ≤ b0) ∧
        (∀ w ∈ ws, ∀ j, jsIndexOf lc w = some j → bi ≤ j)) := by
  induction ws with
  | nil =>
    intro acc
    constructor
    · intro h
      rw [List.foldl_nil] at h
      exact ⟨h, by simp⟩
    · intro bi h
      rw [List.foldl_nil] at h
      refine ⟨Or.inl h, fun b0 hb => ?_, by simp⟩
      rw [h] at hb
      exact (Option.some_inj.mp hb).le
  | cons w ws ih =>
    intro acc
    rw [List.foldl_cons]
    constructor
    · intro h
      obtain ⟨hstep, hrest⟩ := (ih (gsBestStep lc acc w)).1 h
      obtain ⟨ha, hw⟩ := (gsBestStep_none_iff lc acc w).mp hstep
      refine ⟨ha, fun x hx => ?_⟩
      rcases List.mem_cons.mp hx with rfl | hx2
      · exact hw
      · exact hrest x hx2
    · intro bi h
      obtain ⟨hsrc, hmin1, hmin2⟩ := (ih (gsBestStep lc acc w)).2 bi h
      refine ⟨?_, ?_, ?_⟩
      · rcases hsrc with hacc1 | ⟨x, hx, hxi⟩
        · rcases (gsBestStep_some_spec lc acc w bi hacc1).1 with hl | hr
          · exact Or.inl hl
          · exact Or.inr ⟨w, List.mem_cons_self _ _, hr⟩
        · exact Or.inr ⟨x, List.mem_cons_of_mem _ hx, hxi⟩
      · intro b0 hb0
        cases hstep : gsBestStep lc acc w with
        | none =>
          exact absurd hb0 (by simp [((gsBestStep_none_iff lc acc w).mp hstep).1])
        | some b1 =>
          have h1 := hmin1 b1 hstep
          have h2 := (gsBestStep_some_spec lc acc w b1 hstep).2.1 b0 hb0
          omega
      · intro x hx j hj
        rcases List.mem_cons.mp hx with rfl | hx2
        · cases hstep : gsBestStep lc acc x with
          | none =>
            exact absurd hj (by simp [((gsBestStep_none_iff lc acc x).mp hstep).2])
          | some b1 =>
            have h1 := hmin1 b1 hstep
            have h2 := (gsBestStep_some_spec lc acc x b1 hstep).2.2 j hj
            omega
        · exact hmin2 x hx2 j hj


/-- C7 (amended): snippets are built around the earliest case-insensitive
occurrence of any query term.  If no term occurs, the snippet is the
leading 300 characters with an ellipsis appended when the content is
longer (as claimed).  If the earliest occurrence of any term is at `bi`,
the returned value is an ellipsis-decorated core that is a substring of
the content of length at most 300 starting at `max(0, bi - 50)`; the core
window contains the position `bi` itself, and it contains the entire
occurrence whenever the matched term is at most 250 characters long —
terms longer than 250 characters can be cut off at the window end (the
correction the counterexample forces). -/
theorem C7_snippet_amended (content query : String) :
    (gsBestIndex content query = none →
      generateSnippet content query =
        String.mk (content.toList.take 300)
          ++ (if 300 < content.toList.length then "..." else "")) ∧
    (∀ bi, gsBestIndex content query = some bi →
      (∃ w ∈ gsWords query, jsIndexOf (lcList content.toList) w = some bi) ∧
      (∀ w ∈ gsWords query, ∀ j, jsIndexOf (lcList content.toList) w = some j → bi ≤ j) ∧
      generateSnippet content query =
        (if 0 < bi - 50 then "..." else "")
          ++ String.mk ((content.toList.drop (bi - 50)).take
              (min content.toList.length (bi - 50 + 300) - (bi - 50)))
          ++ (if min content.toList.length (bi - 50 + 300) < content.toList.length
              then "..." else "") ∧
      ((content.toList.drop (bi - 50)).take
          (min content.toList.length (bi - 50 + 300) - (bi - 50))).length ≤ 300 ∧
      ((content.toList.drop (bi - 50)).take
          (min content.toList.length (bi - 50 + 300) - (bi - 50))) <:+: content.toList ∧
      (bi - 50 ≤ bi ∧ (bi < content.toList.length →
        bi < min content.toList.length (bi - 50 + 300))) ∧
      (∀ w ∈ gsWords query, jsIndexOf (lcList content.toList) w = some bi →
        w.length ≤ 250 →
        w <:+: lcList ((content.toList.drop (bi - 50)).take
          (min content.toList.length (bi - 50 + 300) - (bi - 50))))) := by
  constructor
  · intro hnone
    simp only [generateSnippet, hnone]
  · intro bi hbi
    have hfold := (gsBestStep_foldl_spec (lcList content.toList) (gsWords query) none).2
      bi hbi
    have hex : ∃ w ∈ gsWords query, jsIndexOf (lcList content.toList) w = some bi := by
      rcases hfold.1 with h | h
      · exact Option.noConfusion h
      · exact h
    refine ⟨hex, hfold.2.2, ?_, ?_, ?_, ?_, ?_⟩
    · simp only [generateSnippet, hbi]
    · rw [List.length_take]
      exact le_trans (Nat.min_le_left _ _) (by omega)
    · exact ( List.take_prefix _ _).isInfix.trans ((List.drop_suffix _ _).isInfix)
    · exact ⟨Nat.sub_le _ _, fun h => lt_min_iff.mpr ⟨h, by omega⟩⟩
    · intro w hw hwbi hwlen
      obtain ⟨hle, hpre⟩ := jsIndexOf_spec (lcList content.toList) w bi hwbi
      have hlen : (lcList content.toList).length = content.toList.length :=
        List.length_map _ _
      have hwl2 : w.length ≤ (lcList content.toList).length - bi := by
        have := hpre.length_le
        rw [List.length_drop] at this
        exact this
      have hbile : bi ≤ content.toList.length := by rw [← hlen]; exact hle
      have hbistop : bi + w.length ≤ min content.toList.length (bi - 50 + 300) := by
        rw [Nat.le_min]
        constructor
        · omega
        · omega
      -- rewrite the lowercased core as take/drop of the lowercased content
      have hcore : lcList ((content.toList.drop (bi - 50)).take
            (min content.toList.length (bi - 50 + 300) - (bi - 50))) =
          ((lcList content.toList).drop (bi - 50)).take
            (min content.toList.length (bi - 50 + 300) - (bi - 50)) := by
        unfold lcList
        rw [List.map_take, List.map_drop]
      rw [hcore]
      -- the occurrence window sits inside the core window
      have hdrop : (((lcList content.toList).drop (bi - 50)).take
            (min content.toList.length (bi - 50 + 300) - (bi - 50))).drop
              (bi - (bi - 50)) =
          ((lcList content.toList).drop bi).take
            (min content.toList.length (bi - 50 + 300) - bi) := by
        rw [List.drop_take, List.drop_drop]
        have h1 : bi - 50 + (bi - (bi - 50)) = bi := by omega
        have h2 : min content.toList.length (bi - 50 + 300) - (bi - 50) -
            (bi - (bi - 50)) = min content.toList.length (bi - 50 + 300) - bi := by
          omega
        rw [h1, h2]
      have hwtake : w = ((lcList content.toList).drop bi).take w.length :=
        List.prefix_iff_eq_take.mp hpre
      have hwpre : w <+: ((lcList content.toList).drop bi).take
          (min content.toList.length (bi - 50 + 300) - bi) := by
        have heq : (((lcList content.toList).drop bi).take
              (min content.toList.length (bi - 50 + 300) - bi)).take w.length = w := by
          rw [List.take_take, min_eq_left (by omega), ← hwtake]
        exact heq ▸ List.take_prefix w.length _
      have hfin : w <+: (((lcList content.toList).drop (bi - 50)).take
          (min content.toList.length (bi - 50 + 300) - (bi - 50))).drop
            (bi - (bi - 50)) := by
        rw [hdrop]
        exact hwpre
      exact (hfin.isInfix).trans ((List.drop_suffix _ _).isInfix)

/-- Witness for `C7_snippet_amended`: the query `WORLD` is found
case-insensitively at position 6 of `hello world`, and the returned
snippet is the (undecorated, because nothing is trimmed) window around
it. -/
theorem C7_snippet_amended_witness :
    generateSnippet "hello world" "WORLD" = "hello world" := by
  have h := (C7_snippet_amended "hello world" "WORLD").2 6 (by decide)
  rw [h.2.2.1]
  decide

/-- On a duplicate-free queue disjoint from the processed set (which the
loop maintains), the batch-forming pop takes exactly the first `cap` queue
entries, leaves the rest queued, and appends the batch to the processed
set. -/
theorem popBatch_disj_eq (q : List String) :
    ∀ (cap : Nat) (pr : List String), q.Nodup → (∀ x ∈ q, x ∉ pr) →
      popBatch q cap pr = (q.take cap, q.drop cap, pr ++ q.take cap) := by
  induction q with
  | nil =>
    intro cap pr _ _
    cases cap <;> simp [popBatch]
  | cons a t ih =>
    intro cap pr hnd hdisj
    cases cap with
    | zero => simp [popBatch]
    | succ c =>
      have ha : a ∉ pr := hdisj a (List.mem_cons_self _ _)
      have hnd2 := List.nodup_cons.mp hnd
      have hdisj2 : ∀ x ∈ t, x ∉ pr ++ [a] := by
        intro x hx hmem
        rcases List.mem_append.mp hmem with h | h
        · exact hdisj x (List.mem_cons_of_mem _ hx) h
        · rw [List.mem_singleton.mp h] at hx
          exact hnd2.1 hx
      simp only [popBatch, if_neg ha, ih c (pr ++ [a]) hnd2.2 hdisj2]
      simp [List.append_assoc]

/-- The link-enqueueing fold preserves the bookkeeping invariants and adds
exactly the not-yet-seen links: the processed set is untouched, the
queue/discovered sets stay duplicate-free, disjoint and covering, the
discovered set grows monotonically, grows only by links of the list, and
ends up containing every link of the list. -/
theorem enqueueNew_spec (links : List String) :
    ∀ s : DiscState,
      (∀ x, x ∈ s.discovered ↔ x ∈ s.processed ∨ x ∈ s.queue) →
      s.queue.Nodup →
      (∀ x ∈ s.queue, x ∉ s.processed) →
      ((enqueueNew links s).processed = s.processed ∧
        (∀ x, x ∈ (enqueueNew links s).discovered ↔
          x ∈ (enqueueNew links s).processed ∨ x ∈ (enqueueNew links s).queue) ∧
        (enqueueNew links s).queue.Nodup ∧
        (∀ x ∈ (enqueueNew links s).queue, x ∉ (enqueueNew links s).processed) ∧
        (∀ x ∈ s.discovered, x ∈ (enqueueNew links s).discovered) ∧
        (∀ x ∈ (enqueueNew links s).discovered, x ∈ s.discovered ∨ x ∈ links) ∧
        (∀ l ∈ links, l ∈ (enqueueNew links s).discovered)) := by
  induction links with
  | nil =>
    intro s hcover hnd hdisj
    refine ⟨rfl, hcover, hnd, hdisj, fun x hx => hx, fun x hx => Or.inl hx, by simp⟩
  | cons l ls ih =>
    intro s hcover hnd hdisj
    by_cases hmem : l ∈ s.processed ∨ l ∈ s.queue
    · have hstep : enqueueNew (l :: ls) s = enqueueNew ls s := by
        simp only [enqueueNew, List.foldl_cons, if_pos hmem]
      rw [hstep]
      obtain ⟨h1, h2, h3, h4, h5, h6, h7⟩ := ih s hcover hnd hdisj
      refine ⟨h1, h2, h3, h4, h5, ?_, ?_⟩
      · intro x hx
        rcases h6 x hx with h | h
        · exact Or.inl h
        · exact Or.inr (List.mem_cons_of_mem _ h)
      · intro x hx
        rcases List.mem_cons.mp hx with rfl | hx2
        · exact h5 x ((hcover x).mpr hmem)
        · exact h7 x hx2
    · set s1 : DiscState :=
        ⟨s.queue ++ [l], s.processed, s.discovered ++ [l]⟩ with hs1
      have hstep : enqueueNew (l :: ls) s = enqueueNew ls s1 := by
        simp only [enqueueNew, List.foldl_cons, if_neg hmem, hs1]
      have hcover1 : ∀ x, x ∈ s1.discovered ↔ x ∈ s1.processed ∨ x ∈ s1.queue := by
        intro x
        simp only [hs1, List.mem_append, List.mem_singleton]
        constructor
        · intro hx
          rcases hx with hx | rfl
          · rcases (hcover x).mp hx with h | h
            · exact Or.inl h
            · exact Or.inr (Or.inl h)
          · exact Or.inr (Or.inr rfl)
        · intro hx
          rcases hx with h | h | rfl
          · exact Or.inl ((hcover x).mpr (Or.inl h))
          · exact Or.inl ((hcover x).mpr (Or.inr h))
          · exact Or.inr rfl
      have hnd1 : s1.queue.Nodup := by
        simp only [hs1]
        rw [List.nodup_append]
        exact ⟨hnd, List.nodup_singleton l,
          fun a ha hb => hmem (Or.inr ((List.mem_singleton.mp hb) ▸ ha))⟩
      have hdisj1 : ∀ x ∈ s1.queue, x ∉ s1.processed := by
        intro x hx
        simp only [hs1, List.mem_append, List.mem_singleton] at hx ⊢
        rcases hx with h | rfl
        · exact hdisj x h
        · exact fun hc => hmem (Or.inl hc)
      rw [hstep]
      obtain ⟨h1, h2, h3, h4, h5, h6, h7⟩ := ih s1 hcover1 hnd1 hdisj1
      refine ⟨h1, h2, h3, h4, ?_, ?_, ?_⟩
      · intro x hx
        exact h5 x (by simp [hs1, hx])
      · intro x hx
        rcases h6 x hx with h | h
        · simp only [hs1, List.mem_append, List.mem_singleton] at h
          rcases h with h | rfl
          · exact Or.inl h
          · exact Or.inr (List.mem_cons_self _ _)
        · exact Or.inr (List.mem_cons_of_mem _ h)
      · intro x hx
        rcases List.mem_cons.mp hx with rfl | hx2
        · exact h5 x (by simp [hs1])
        · exact h7 x hx2

/-- One discovery iteration on a nonempty queue preserves the invariant and
strictly grows the processed set. -/
theorem discoverStep_spec (site : String → Option (List String)) (baseUrl : String)
    (U : List String) (bs : Nat)
    (hU : ∀ p q, q ∈ discoverFromPath site [] baseUrl p → q ∈ U)
    (s : DiscState) (hinv : DiscInv site baseUrl U s)
    (hq : s.queue ≠ []) (hbs : 1 ≤ bs) :
    DiscInv site baseUrl U (discoverStep site [] baseUrl bs s) ∧
      s.processed.length < (discoverStep site [] baseUrl bs s).processed.length := by
  have hpop := popBatch_disj_eq s.queue bs s.processed hinv.qNodup hinv.disj
  have hbne : s.queue.take bs ≠ [] := by
    rw [Ne, List.take_eq_nil_iff]
    push_neg
    exact ⟨by omega, hq⟩
  have hsplit : ∀ x : String, x ∈ s.queue ↔ x ∈ s.queue.take bs ∨ x ∈ s.queue.drop bs := by
    intro x
    conv_lhs => rw [← List.take_append_drop bs s.queue]
    exact List.mem_append
  have hqnd : (s.queue.take bs ++ s.queue.drop bs).Nodup := by
    rw [List.take_append_drop]
    exact hinv.qNodup
  have htdDisj := (List.nodup_append.mp hqnd).2.2
  have hstep : discoverStep site [] baseUrl bs s =
      enqueueNew ((s.queue.take bs).flatMap (discoverFromPath site [] baseUrl))
        ⟨s.queue.drop bs, s.processed ++ s.queue.take bs, s.discovered⟩ := by
    unfold discoverStep
    rw [hpop,
      if_neg (show ¬(List.take bs s.queue).isEmpty = true from
        fun hc => hbne (List.isEmpty_iff.mp hc))]
  set mid : DiscState :=
    ⟨s.queue.drop bs, s.processed ++ s.queue.take bs, s.discovered⟩ with hmid
  set newLinks := (s.queue.take bs).flatMap (discoverFromPath site [] baseUrl)
    with hnl
  have hcoverMid : ∀ x, x ∈ mid.discovered ↔ x ∈ mid.processed ∨ x ∈ mid.queue := by
    intro x
    simp only [hmid, List.mem_append]
    rw [hinv.cover x, hsplit x]
    tauto
  have hndMid : mid.queue.Nodup :=
    (List.drop_sublist bs s.queue).nodup hinv.qNodup
  have hdisjMid : ∀ x ∈ mid.queue, x ∉ mid.processed := by
    intro x hx
    simp only [hmid, List.mem_append] at hx ⊢
    push_neg
    constructor
    · exact hinv.disj x ((List.drop_sublist bs s.queue).mem hx)
    · intro hc
      exact htdDisj hc hx
  obtain ⟨h1, h2, h3, h4, h5, h6, h7⟩ := enqueueNew_spec newLinks mid hcoverMid hndMid hdisjMid
  rw [hstep]
  have hnewReach : ∀ x ∈ newLinks, Reaches site [] baseUrl x := by
    intro x hx
    obtain ⟨b, hb, hxb⟩ := List.mem_flatMap.mp hx
    have hbq : b ∈ s.queue := (List.take_sublist bs s.queue).mem hb
    have hbd : b ∈ s.discovered := (hinv.cover b).mpr (Or.inr hbq)
    exact Reaches.step (hinv.sound b hbd) hxb
  have hnewU : ∀ x ∈ newLinks, x ∈ U := by
    intro x hx
    obtain ⟨b, _, hxb⟩ := List.mem_flatMap.mp hx
    exact hU b x hxb
  constructor
  · refine ⟨h3, h4, ?_, h2, ?_, ?_, ?_, ?_⟩
    · rw [h1]
      simp only [hmid]
      rw [List.nodup_append]
      refine ⟨hinv.pNodup, (List.take_sublist bs s.queue).nodup hinv.qNodup, ?_⟩
      intro a ha hat
      exact hinv.disj a ((List.take_sublist bs s.queue).mem hat) ha
    · intro x hx
      rcases h6 x hx with h | h
      · exact hinv.sound x h
      · exact hnewReach x h
    · intro p hp q hqf
      rw [h1] at hp
      simp only [hmid, List.mem_append] at hp
      rcases hp with hp | hp
      · exact h5 q (hinv.closed p hp q hqf)
      · exact h7 q (List.mem_flatMap.mpr ⟨p, hp, hqf⟩)
    · intro x hx
      rcases h6 x hx with h | h
      · exact hinv.subU x h
      · exact hnewU x h
    · exact h5 _ hinv.rootMem
  · rw [h1]
    simp only [hmid, List.length_append]
    have : 0 < (s.queue.take bs).length := List.length_pos.mpr hbne
    omega

/-- The discovery loop, run with fuel covering the not-yet-processed part
of the universe, maintains the invariant and drains the queue: every
iteration on a nonempty queue processes at least one new path of `U`, and
once the processed set exhausts `U` the queue must be empty. -/
theorem discoverLoop_spec (site : String → Option (List String)) (baseUrl : String)
    (U : List String) (bs : Nat)
    (hU : ∀ p q, q ∈ discoverFromPath site [] baseUrl p → q ∈ U)
    (hbs : 1 ≤ bs) :
    ∀ (fuel : Nat) (s : DiscState), DiscInv site baseUrl U s →
      U.toFinset.card ≤ fuel + s.processed.length →
      DiscInv site baseUrl U (discoverLoop site [] baseUrl bs fuel s) ∧
        (discoverLoop site [] baseUrl bs fuel s).queue = [] := by
  intro fuel
  induction fuel with
  | zero =>
    intro s hinv hcard
    have hqe : s.queue = [] := by
      by_contra hne
      obtain ⟨x, hx⟩ := List.exists_mem_of_ne_nil s.queue hne
      have hxU : x ∈ U := hinv.subU x ((hinv.cover x).mpr (Or.inr hx))
      have hsubset : s.processed.toFinset ⊆ U.toFinset := by
        intro a ha
        rw [List.mem_toFinset] at ha ⊢
        exact hinv.subU a ((hinv.cover a).mpr (Or.inl ha))
      have hcards : U.toFinset.card ≤ s.processed.toFinset.card := by
        rw [List.toFinset_card_of_nodup hinv.pNodup]
        omega
      have heq := Finset.eq_of_subset_of_card_le hsubset hcards
      have hxp : x ∈ s.processed := by
        have : x ∈ s.processed.toFinset := by
          rw [heq, List.mem_toFinset]
          exact hxU
        rwa [List.mem_toFinset] at this
      exact hinv.disj x hx hxp
    rw [discoverLoop]
    exact ⟨hinv, hqe⟩
  | succ f ih =>
    intro s hinv hcard
    by_cases hqe : s.queue = []
    · have hloop : discoverLoop site [] baseUrl bs (f + 1) s = s := by
        rw [discoverLoop, if_pos (by simpa [List.isEmpty_iff] using hqe)]
      rw [hloop]
      exact ⟨hinv, hqe⟩
    · obtain ⟨hinv1, hlen⟩ := discoverStep_spec site baseUrl U bs hU s hinv hqe hbs
      have hloop : discoverLoop site [] baseUrl bs (f + 1) s =
          discoverLoop site [] baseUrl bs f (discoverStep site [] baseUrl bs s) := by
        rw [discoverLoop,
          if_neg (show ¬s.queue.isEmpty = true from
            fun hc => hqe (List.isEmpty_iff.mp hc))]
      rw [hloop]
      exact ih _ hinv1 (by omega)

/-- C4 (amended): discovery from `/` terminates and is complete.  For any
site whose processed links all land in a finite universe `U` containing
the root, and any fuel of at least the number of distinct universe paths
(the loop needs no more iterations than that, so the unbounded source loop
terminates), the discovery queue is drained and the discovered set is
exactly the set of paths reachable from `/` along extracted internal
links — links filtered by `normalizePath`, which drops a link whenever its
CLEANED HREF (before the leading slash is prepended) matches a
static-asset pattern.  Every absolute href matching a pattern is thereby
dropped; a relative href can normalize onto a pattern-matching path and be
kept, which is the correction the counterexample forces. -/
theorem C4_discovery_amended (site : String → Option (List String)) (baseUrl : String)
    (bs fuel : Nat) (U : List String) (hbs : 1 ≤ bs) (hroot : "/" ∈ U)
    (hU : ∀ p q, q ∈ discoverFromPath site [] baseUrl p → q ∈ U)
    (hfuel : U.toFinset.card ≤ fuel) :
    (discoverUrls site baseUrl bs fuel).queue = [] ∧
      ∀ x, x ∈ (discoverUrls site baseUrl bs fuel).discovered ↔
        Reaches site [] baseUrl x := by
  unfold discoverUrls
  have hinv0 : DiscInv site baseUrl U ⟨["/"], [], ["/"]⟩ := by
    refine ⟨List.nodup_singleton _, ?_, List.nodup_nil, ?_, ?_, ?_, ?_, ?_⟩
    · intro x _
      simp
    · intro x
      simp
    · intro x hx
      rw [List.mem_singleton.mp hx]
      exact Reaches.root
    · intro p hp
      cases hp
    · intro x hx
      rw [List.mem_singleton.mp hx]
      exact hroot
    · exact List.mem_singleton_self _
  obtain ⟨hinvF, hqF⟩ := discoverLoop_spec site baseUrl U bs hU hbs fuel
    ⟨["/"], [], ["/"]⟩ hinv0 (by simpa using hfuel)
  refine ⟨hqF, fun x => ⟨fun hx => hinvF.sound x hx, fun hr => ?_⟩⟩
  induction hr with
  | root => exact hinvF.rootMem
  | step hp hl ih =>
    rename_i p q
    have hpp : p ∈ (discoverLoop site [] baseUrl bs fuel ⟨["/"], [], ["/"]⟩).processed := by
      rcases (hinvF.cover p).mp ih with h | h
      · exact h
      · rw [hqF] at h
        cases h
    exact hinvF.closed p hpp q hl

/-- Every link the discovery pipeline extracts on the four-page fixture
lands back in the fixture universe (in particular the `/assets/style.css`
href is filtered out by the static-asset drop). -/
theorem site1_links_in_universe :
    ∀ p q, q ∈ discoverFromPath site1 [] baseUrl0 p → q ∈ ["/", "/a", "/a/b", "/c"] := by
  intro p q hq
  by_cases h1 : p = "/"
  · subst h1
    rw [show discoverFromPath site1 [] baseUrl0 "/" = ["/a", "/c"] from by decide] at hq
    simp only [List.mem_cons, List.not_mem_nil, or_false] at hq
    simp only [List.mem_cons, List.not_mem_nil, or_false]
    tauto
  by_cases h2 : p = "/a"
  · subst h2
    rw [show discoverFromPath site1 [] baseUrl0 "/a" = ["/", "/a/b", "/c"] from by decide] at hq
    simp only [List.mem_cons, List.not_mem_nil, or_false] at hq
    simp only [List.mem_cons, List.not_mem_nil, or_false]
    tauto
  by_cases h3 : p = "/a/b"
  · subst h3
    rw [show discoverFromPath site1 [] baseUrl0 "/a/b" = ["/a", "/c"] from by decide] at hq
    simp only [List.mem_cons, List.not_mem_nil, or_false] at hq
    simp only [List.mem_cons, List.not_mem_nil, or_false]
    tauto
  by_cases h4 : p = "/c"
  · subst h4
    rw [show discoverFromPath site1 [] baseUrl0 "/c" = ["/", "/a/b"] from by decide] at hq
    simp only [List.mem_cons, List.not_mem_nil, or_false] at hq
    simp only [List.mem_cons, List.not_mem_nil, or_false]
    tauto
  · have hnone : site1 p = none := by
      simp [site1, h1, h2, h3, h4]
    simp [discoverFromPath, hnone] at hq

set_option maxRecDepth 100000 in
/-- Witness for `C4_discovery_amended` on the fixture site: applied with
batch size `min 8 5 = 5` and fuel 4 (the universe size), the queue drains,
the discovered set is exactly the four pages `{/, /a, /a/b, /c}` (the
`/assets/style.css` link is excluded), `/a/b` is certified reachable, and
the stylesheet is certified unreachable. -/
theorem C4_discovery_amended_witness :
    (discoverUrls site1 baseUrl0 5 4).queue = [] ∧
      (discoverUrls site1 baseUrl0 5 4).discovered = ["/", "/a", "/c", "/a/b"] ∧
      Reaches site1 [] baseUrl0 "/a/b" ∧
      ¬Reaches site1 [] baseUrl0 "/assets/style.css" := by
  have h := C4_discovery_amended site1 baseUrl0 5 4 ["/", "/a", "/a/b", "/c"]
    (by decide) (by decide) site1_links_in_universe (by decide)
  refine ⟨h.1, by decide, (h.2 "/a/b").mp (by decide), fun hr => ?_⟩
  have hmem := (h.2 "/assets/style.css").mpr hr
  revert hmem
  decide

end Mcpbook
